import Mathlib

/-!
Verification of the command extraction and recovery pipeline of the
AIYandexStartup_Assistent repository (`ai-python/ai_assistant/`).

The Python modules `schemas.py`, `nlu.py`, `llm.py` and `pipeline.py` are
shallowly embedded below.  JSON values (Python objects produced by
`json.loads`) are modelled by the inductive type `JValue`; Python dicts are
association lists with first-match lookup (Python dicts never hold duplicate
keys, so this is faithful on every value that can actually arise).

External effects are modelled explicitly:
* the stdlib `datetime.fromisoformat` success test is an abstract parameter
  `isoOk : String → Bool`;
* `uuid.uuid4` / `datetime.utcnow` are an abstract generator `fresh : Nat →
  String` with a threaded counter, and a fixed `now : String`;
* the LLM backend and the HTTP bridge are oracles carried by an `Env`
  record; each LLM call composed with `parse_json_safely` is modelled as an
  `Except Unit JValue` (the `Unit` error standing for a raised exception);
* the bridge is an oracle `Nat → Command → Option JValue` consuming a call
  counter, so that a stateful bridge test double is expressible and bridge
  invocations can be counted.
-/

namespace Assistant

/-- JSON values as produced by Python's `json.loads`.  Objects keep field
order (Python dicts are ordered); numbers are collapsed to `Int`, which is
irrelevant for every property below. -/
inductive JValue where
  | null : JValue
  | bool : Bool → JValue
  | num : Int → JValue
  | str : String → JValue
  | arr : List JValue → JValue
  | obj : List (String × JValue) → JValue

/-- Python dict lookup: `d.get(k)`. -/
def jGet (fields : List (String × JValue)) (k : String) : Option JValue :=
  (fields.find? (fun p => p.1 = k)).map (·.2)

/-- Python truthiness of a JSON value (`bool(v)`). -/
def jTruthy : JValue → Bool
  | .null => false
  | .bool b => b
  | .num n => n ≠ 0
  | .str s => s ≠ ""
  | .arr xs => ¬ xs.isEmpty
  | .obj fs => ¬ fs.isEmpty

/-! ## `schemas.py` -/

/-- `ValidationIssue` from `schemas.py`. -/
structure ValidationIssue where
  field : String
  message : String
deriving DecidableEq, Repr

/-- `Command` from `schemas.py`. -/
structure Command where
  action : String
  params : List (String × JValue)
  uuid : String
  timestamp : String

/-- `ValidationResult` from `schemas.py`. -/
structure ValidationResult where
  is_valid : Bool
  issues : List ValidationIssue
  commands : List Command

/-- Python `s.endswith(c)` for a one-character suffix. -/
def pyEndsWith (s : String) (c : Char) : Bool :=
  match s.toList.getLast? with
  | some d => d = c
  | none => false

/-- Python `s.startswith(c)` for a one-character prefix. -/
def pyStartsWith (s : String) (c : Char) : Bool :=
  s.toList.head? = some c

/-- Python `s.replace("Z", "+00:00")`: replace every occurrence of the
one-character pattern. -/
def replaceZ (s : String) : String :=
  String.mk ((s.toList.map
    (fun c => if c = 'Z' then "+00:00".toList else [c])).flatten)

/-- `Command.to_json`. -/
def Command.to_json (c : Command) : JValue :=
  .obj [("action", .str c.action), ("params", .obj c.params),
        ("uuid", .str c.uuid), ("timestamp", .str c.timestamp)]

/-- `ALLOWED_ACTIONS` from `schemas.py`: required parameter names per action. -/
def allowedActions (a : String) : Option (List String) :=
  if a = "open_app" then some ["application"]
  else if a = "search_files" then some ["query"]
  else if a = "adjust_setting" then some ["setting", "value"]
  else if a = "system_status" then some []
  else if a = "answer_question" then some ["answer"]
  else none

/-- `action not in ALLOWED_ACTIONS` (negated): the declared action is an
allowed string.  Total over hashable action values (absent, null, bool,
number, non-member string — all fail the membership test in Python too);
for an unhashable action value (a JSON array or object) Python instead
raises `TypeError` at the membership test, a path modelled by
`validate_command_exc` below. -/
def actionOk : Option JValue → Bool
  | some (.str s) => (allowedActions s).isSome
  | _ => false

/-- `ALLOWED_ACTIONS.get(action, [])` for hashable action values.  On an
unhashable action Python raises `TypeError` before this lookup is reached
(in `schemas.py` the membership test on line 128 raises first; in `nlu.py`
the raise from this lookup is caught by the callers' recovery/expansion
handlers or propagates like any extraction failure). -/
def requiredOf : Option JValue → List String
  | some (.str s) => (allowedActions s).getD []
  | _ => []

/-- A declared action value usable as a Python dict key: JSON arrays and
objects are unhashable, so `action not in ALLOWED_ACTIONS` raises
`TypeError` on them. -/
def actionHashable : Option JValue → Bool
  | some (.arr _) => false
  | some (.obj _) => false
  | _ => true

/-- `params if isinstance(params, dict) else \x7b\x7d`. -/
def paramsFields : JValue → List (String × JValue)
  | .obj fs => fs
  | _ => []

/-- The `action not in ALLOWED_ACTIONS` check of `_validate_single_command`. -/
def actionIssues (pfx : String) (action : Option JValue) : List ValidationIssue :=
  if actionOk action then []
  else [⟨pfx ++ ".action", "Unsupported or missing action"⟩]

/-- The `isinstance(params, dict)` check of `_validate_single_command`. -/
def paramsIssues (pfx : String) (params0 : JValue) : List ValidationIssue :=
  match params0 with
  | .obj _ => []
  | _ => [⟨pfx ++ ".params", "Params must be an object"⟩]

/-- The required-parameter loop of `_validate_single_command`: one issue per
required name missing from `params`.  Note the field path is
`pfx ++ "." ++ name`, with no `params` segment. -/
def missingIssues (pfx : String) (action : Option JValue)
    (params : List (String × JValue)) : List ValidationIssue :=
  ((requiredOf action).filter (fun f => (jGet params f).isNone)).map
    (fun f => ⟨pfx ++ "." ++ f, "Missing required field"⟩)

/-- `not uuid or not isinstance(uuid, str)` (negated): a non-empty string. -/
def uuidOk : Option JValue → Bool
  | some (.str s) => s ≠ ""
  | _ => false

/-- The uuid check of `_validate_single_command`. -/
def uuidIssues (pfx : String) (uuidv : Option JValue) : List ValidationIssue :=
  if uuidOk uuidv then [] else [⟨pfx ++ ".uuid", "UUID is required"⟩]

/-- The timestamp check of `_validate_single_command`: present non-empty
string, then ISO-8601 after mapping a trailing `Z` to `+00:00`. -/
def tsIssues (isoOk : String → Bool) (pfx : String) (tsv : Option JValue) :
    List ValidationIssue :=
  match tsv with
  | some (.str s) =>
      if s = "" then [⟨pfx ++ ".timestamp", "Timestamp is required"⟩]
      else
        if isoOk (if pyEndsWith s 'Z' then replaceZ s else s) then []
        else [⟨pfx ++ ".timestamp", "Timestamp must be ISO 8601"⟩]
  | _ => [⟨pfx ++ ".timestamp", "Timestamp is required"⟩]

/-- `_validate_single_command` from `schemas.py`.  `isoOk` models the success
of `datetime.fromisoformat`. -/
def validate_single_command (isoOk : String → Bool)
    (data : List (String × JValue)) (pfx : String) :
    List ValidationIssue × Option Command :=
  let action := jGet data "action"
  let params := paramsFields ((jGet data "params").getD (.obj []))
  let issues :=
    actionIssues pfx action
      ++ paramsIssues pfx ((jGet data "params").getD (.obj []))
      ++ missingIssues pfx action params
      ++ uuidIssues pfx (jGet data "uuid")
      ++ tsIssues isoOk pfx (jGet data "timestamp")
  let command :=
    if issues.isEmpty then
      some { action := match action with | some (.str s) => s | _ => ""
             params := params
             uuid := match jGet data "uuid" with | some (.str s) => s | _ => ""
             timestamp := match jGet data "timestamp" with | some (.str s) => s | _ => "" }
    else none
  (issues, command)

/-- `_normalize_command_payload` from `schemas.py`. -/
def normalize_command_payload (data : JValue) :
    List JValue × List ValidationIssue :=
  match data with
  | .arr xs => (xs, [])
  | .obj fs =>
      match jGet fs "commands" with
      | some (.arr cs) => (cs, [])
      | some v => ([v], [⟨"commands", "Commands must be a list"⟩])
      | none => ([.obj fs], [])
  | _ => ([], [⟨"root", "Payload must be an object or list"⟩])

/-- The issue-field prefix for entry `i` of an `n`-entry payload
(`f"commands[{index}]" if len(raw_commands) > 1 else "command"`). -/
def entryPfx (n i : Nat) : String :=
  if 1 < n then "commands[" ++ toString i ++ "]" else "command"

/-- The per-entry loop of `validate_command`: validates entries in order,
collecting issues and valid commands. -/
def validateEntries (isoOk : String → Bool) (n : Nat) :
    Nat → List JValue → List ValidationIssue × List Command
  | _, [] => ([], [])
  | i, e :: rest =>
      let (restIssues, restCmds) := validateEntries isoOk n (i + 1) rest
      match e with
      | .obj fs =>
          let (cmdIssues, cmd) := validate_single_command isoOk fs (entryPfx n i)
          (cmdIssues ++ restIssues,
           match cmd with | some c => c :: restCmds | none => restCmds)
      | _ =>
          (⟨entryPfx n i, "Each command must be an object"⟩ :: restIssues, restCmds)

/-- The per-entry loop of `validate_command` with the `TypeError` escape
modelled: a dict entry whose declared action is an unhashable value aborts
the whole call at `action not in ALLOWED_ACTIONS` (`.error ()`), losing the
issues and commands of every entry. -/
def validateEntriesExc (isoOk : String → Bool) (n : Nat) :
    Nat → List JValue → Except Unit (List ValidationIssue × List Command)
  | _, [] => .ok ([], [])
  | i, e :: rest =>
      match e with
      | .obj fs =>
          if actionHashable (jGet fs "action") then
            match validateEntriesExc isoOk n (i + 1) rest with
            | .error err => .error err
            | .ok (restIssues, restCmds) =>
                let out := validate_single_command isoOk fs (entryPfx n i)
                .ok (out.1 ++ restIssues,
                     match out.2 with | some c => c :: restCmds | none => restCmds)
          else .error ()
      | _ =>
          match validateEntriesExc isoOk n (i + 1) rest with
          | .error err => .error err
          | .ok (restIssues, restCmds) =>
              .ok (⟨entryPfx n i, "Each command must be an object"⟩ :: restIssues,
                   restCmds)

/-- `validate_command` from `schemas.py`, with the raising path kept:
`.error ()` models the `TypeError` raised on an unhashable declared action,
in which case no `ValidationResult` is returned at all. -/
def validate_command_exc (isoOk : String → Bool) (data : JValue) :
    Except Unit ValidationResult :=
  let norm := normalize_command_payload data
  let rawCommands := norm.1
  let noneIssues :=
    if rawCommands.isEmpty then
      [(⟨"commands", "No commands provided"⟩ : ValidationIssue)]
    else []
  match validateEntriesExc isoOk rawCommands.length 0 rawCommands with
  | .error err => .error err
  | .ok entryResults =>
      let issues := norm.2 ++ noneIssues ++ entryResults.1
      .ok { is_valid := ¬ entryResults.2.isEmpty ∧ issues.isEmpty
            issues := issues
            commands := entryResults.2 }

/-- An entry that cannot make the validator raise: a non-dict (flagged with
an issue before any hashing), or a dict whose declared action is
hashable. -/
def entryActionHashable : JValue → Bool
  | .obj fs => actionHashable (jGet fs "action")
  | _ => true

/-- `validate_command` from `schemas.py`, on the inputs where it returns
normally (see `validate_command_exc` for the raising path). -/
def validate_command (isoOk : String → Bool) (data : JValue) : ValidationResult :=
  let norm := normalize_command_payload data
  let rawCommands := norm.1
  let noneIssues :=
    if rawCommands.isEmpty then
      [(⟨"commands", "No commands provided"⟩ : ValidationIssue)]
    else []
  let entryResults := validateEntries isoOk rawCommands.length 0 rawCommands
  let issues := norm.2 ++ noneIssues ++ entryResults.1
  { is_valid := ¬ entryResults.2.isEmpty ∧ issues.isEmpty
    issues := issues
    commands := entryResults.2 }

/-! ## `nlu.py` — the Field Backfiller (`IntentExtractor._ensure_required_fields`)

`uuid.uuid4()` is modelled by `fresh : Nat → String` with a counter `k`
threaded through (the counter advances exactly when the code calls
`uuid4()`); `datetime.utcnow().isoformat() + "Z"` is modelled by a fixed
string `now`. -/

/-- Python substring containment (`needle in hay`). -/
def containsSub (needle : List Char) : List Char → Bool
  | [] => needle.isEmpty
  | c :: rest => List.isPrefixOf needle (c :: rest) || containsSub needle rest

/-- Update every binding of `key` in an association list (`{**data, key: v}`
for a key already present keeps its position). -/
def setKey (fields : List (String × JValue)) (key : String) (v : JValue) :
    List (String × JValue) :=
  fields.map (fun p => if p.1 = key then (p.1, v) else p)

/-- The `params`-folding loop of `_enrich_command`: for every required
parameter name absent from `params` but present at top level, copy it in
(insertion appends, matching dict insertion order). -/
def foldParams (cmd : List (String × JValue)) (required : List String)
    (params0 : List (String × JValue)) : List (String × JValue) :=
  required.foldl (fun ps f =>
    if (jGet ps f).isNone then
      match jGet cmd f with
      | some v => ps ++ [(f, v)]
      | none => ps
    else ps) params0

/-- Identifier backfill of `_enrich_command`: keep the incoming `uuid`
unless it is absent, falsy, not a string, or starts with an angle-bracket
placeholder; otherwise draw `str(uuid4())` (advancing the draw counter). -/
def enrichUuid (fresh : Nat → String) (k : Nat) : Option JValue → JValue × Nat
  | some (.str s) =>
      if s ≠ "" ∧ ¬ pyStartsWith s '<' then (JValue.str s, k)
      else (JValue.str (fresh k), k + 1)
  | _ => (JValue.str (fresh k), k + 1)

/-- Timestamp backfill of `_enrich_command`: keep the incoming `timestamp`
unless it is absent, falsy, not a string, or contains the placeholder date
`2024-01-01`; otherwise use the current time. -/
def enrichTs (now : String) : Option JValue → JValue
  | some (.str s) =>
      if s ≠ "" ∧ ¬ containsSub "2024-01-01".toList s.toList then JValue.str s
      else JValue.str now
  | _ => JValue.str now

/-- `_enrich_command` from `nlu.py` (inner function of
`_ensure_required_fields`). -/
def enrich_command (fresh : Nat → String) (now : String) (k : Nat)
    (cmd : List (String × JValue)) : List (String × JValue) × Nat :=
  let action := jGet cmd "action"
  let params0 := match jGet cmd "params" with | some (.obj fs) => fs | _ => []
  let params := foldParams cmd (requiredOf action) params0
  ([("action", (jGet cmd "action").getD .null), ("params", .obj params),
    ("uuid", (enrichUuid fresh k (jGet cmd "uuid")).1),
    ("timestamp", enrichTs now (jGet cmd "timestamp"))],
   (enrichUuid fresh k (jGet cmd "uuid")).2)

/-- `_enrich_collection` from `nlu.py`: enrich dict items, pass others
through unchanged. -/
def enrich_collection (fresh : Nat → String) (now : String) :
    Nat → List JValue → List JValue × Nat
  | k, [] => ([], k)
  | k, (.obj fs) :: rest =>
      let (c, k₁) := enrich_command fresh now k fs
      let (cs, k₂) := enrich_collection fresh now k₁ rest
      (.obj c :: cs, k₂)
  | k, v :: rest =>
      let (cs, k₁) := enrich_collection fresh now k rest
      (v :: cs, k₁)

/-- `IntentExtractor._ensure_required_fields` from `nlu.py`. -/
def ensure_required_fields (fresh : Nat → String) (now : String) (k : Nat) :
    JValue → JValue × Nat
  | .arr xs =>
      let (ys, k') := enrich_collection fresh now k xs
      (.arr ys, k')
  | .obj fs =>
      match jGet fs "commands" with
      | some (.arr cs) =>
          let (cs', k') := enrich_collection fresh now k cs
          (.obj (setKey fs "commands" (.arr cs')), k')
      | _ =>
          let (c, k') := enrich_command fresh now k fs
          (.obj c, k')
  | v => (v, k)

/-! ## `llm.py` — the Response Parser

`json.loads` is a stdlib call; it is an abstract parameter
`loads : List Char → Option JValue` (`none` models a raised
`json.JSONDecodeError`).  Texts are worked on as `List Char`. -/

/-- The whitespace class of Python's `str.strip` / the regex `\s` (ASCII
part, which is all that the fence pattern interacts with here). -/
def isPyWs (c : Char) : Bool :=
  c = ' ' ∨ c = '\t' ∨ c = '\n' ∨ c = '\r' ∨ c = '\x0b' ∨ c = '\x0c'

/-- Drop leading whitespace (the `\s*` of the fence pattern, which must be
followed by a non-whitespace character). -/
def skipWs (cs : List Char) : List Char := cs.dropWhile isPyWs

/-- Python `str.strip()`. -/
def pstrip (cs : List Char) : List Char :=
  ((cs.dropWhile isPyWs).reverse.dropWhile isPyWs).reverse

/-- After the non-greedy group of the fence pattern, `\s*` then a literal
` ``` ` must follow. -/
def fenceAfter (cs : List Char) : Bool :=
  List.isPrefixOf ['`', '`', '`'] (skipWs cs)

/-- The non-greedy body scan for `\{[\s\S]*?\}` inside the fenced pattern:
take the shortest prefix ending at a closing brace that is followed by
`\s*` and a closing fence. -/
def scanMinObj : List Char → Option (List Char)
  | [] => none
  | c :: rest =>
      if c = '}' ∧ fenceAfter rest then some [c]
      else (scanMinObj rest).map (c :: ·)

/-- The non-greedy body scan for `\[[\s\S]*?]` inside the fenced pattern. -/
def scanMinArr : List Char → Option (List Char)
  | [] => none
  | c :: rest =>
      if c = ']' ∧ fenceAfter rest then some [c]
      else (scanMinArr rest).map (c :: ·)

/-- Try the fenced pattern anchored at the given position: a literal
` ``` `, an optional `json` tag, `\s*`, then the non-greedy object or array
group, then `\s*` and a closing ` ``` `.  (The optional tag and the `\s*`
are deterministic here because neither `j` nor a whitespace character can
start the group.) -/
def fencedFrom (cs : List Char) : Option (List Char) :=
  if List.isPrefixOf ['`', '`', '`'] cs then
    let rest := cs.drop 3
    let rest := if List.isPrefixOf ['j', 's', 'o', 'n'] rest then rest.drop 4 else rest
    let rest := skipWs rest
    match rest with
    | '{' :: body => (scanMinObj body).map ('{' :: ·)
    | '[' :: body => (scanMinArr body).map ('[' :: ·)
    | _ => none
  else none

/-- `re.search` for the fenced pattern: leftmost matching start position. -/
def fencedSearch : List Char → Option (List Char)
  | [] => none
  | c :: rest =>
      match fencedFrom (c :: rest) with
      | some g => some g
      | none => fencedSearch rest

/-- Take the prefix of `cs` up to and including the last occurrence of
`ch`, if any (the greedy `[\s\S]*` followed by the literal closer). -/
def takeToLast (ch : Char) (cs : List Char) : Option (List Char) :=
  match cs.reverse.dropWhile (fun c => c ≠ ch) with
  | [] => none
  | l => some l.reverse

/-- `re.search(r"\{[\s\S]*\}", text)`: from the first viable `{`, match
greedily to the last `}`. -/
def greedyObj : List Char → Option (List Char)
  | [] => none
  | c :: rest =>
      if c = '{' then
        match takeToLast '}' rest with
        | some body => some ('{' :: body)
        | none => greedyObj rest
      else greedyObj rest

/-- `re.search(r"\[[\s\S]*\]", text)`. -/
def greedyArr : List Char → Option (List Char)
  | [] => none
  | c :: rest =>
      if c = '[' then
        match takeToLast ']' rest with
        | some body => some ('[' :: body)
        | none => greedyArr rest
      else greedyArr rest

/-- `_extract_json_candidates` from `llm.py`: the fenced candidate, then the
greedy object-shaped candidate, then the greedy array-shaped candidate, each
stripped. -/
def extract_json_candidates (cs : List Char) : List (List Char) :=
  (match fencedSearch cs with | some g => [pstrip g] | none => [])
  ++ (match greedyObj cs with | some g => [pstrip g] | none => [])
  ++ (match greedyArr cs with | some g => [pstrip g] | none => [])

/-- The candidate loop of `parse_json_safely`: first candidate that parses
wins; otherwise the `ValueError` is raised (modelled as `.error ()`). -/
def tryCandidates (loads : List Char → Option JValue) :
    List (List Char) → Except Unit JValue
  | [] => .error ()
  | c :: rest =>
      match loads c with
      | some v => .ok v
      | none => tryCandidates loads rest

/-- `parse_json_safely` from `llm.py`. -/
def parse_json_safely (loads : List Char → Option JValue) (text : List Char) :
    Except Unit JValue :=
  let cleaned := pstrip text
  if cleaned.isEmpty then .error ()
  else
    match loads cleaned with
    | some v => .ok v
    | none => tryCandidates loads (extract_json_candidates cleaned)

/-- Wrapping a serialized JSON fragment in a fenced code block, with or
without a `json` language tag (the spec's "text formed by wrapping v's
serialization in a fenced code block"). -/
def fenceWrap (tag : Bool) (s : List Char) : List Char :=
  ['`', '`', '`'] ++ (if tag then ['j', 's', 'o', 'n'] else []) ++ ['\n']
    ++ s ++ '\n' :: ['`', '`', '`']

/-! ## `pipeline.py` — the Pipeline Orchestrator

The two injected capabilities and the remaining external calls are carried
by an `Env` record.  Every LLM call composed with `parse_json_safely` is an
`Except Unit JValue` oracle (`.error ()` = the Python chain raised); the
bridge is an oracle over a call counter so that stateful test doubles are
expressible and bridge invocations can be counted. -/

/-- The mutable externals threaded through one `process_text` invocation:
how many `uuid4` values have been drawn and how many bridge calls made. -/
structure PState where
  uuids : Nat
  calls : Nat
deriving DecidableEq, Repr

/-- The injected capabilities of `process_text` (for one fixed input text). -/
structure Env where
  /-- `bridge.send_command`, by call number and command; `none` models a
  transport failure. -/
  bridge : Nat → Command → Option JValue
  /-- `sender.send(text)` composed with `parse_json_safely`. -/
  sendParsed : Except Unit JValue
  /-- `sender.complete_custom(build_multistep_prompt(text))` composed with
  `parse_json_safely`. -/
  multistep : Except Unit JValue
  /-- `sender.complete_custom(build_error_resolution_prompt(text,
  failed_command.to_json(), error_response or \x7b\x7d))` composed with
  `parse_json_safely`, as a function of the failed command and the error
  payload handed to the prompt builder. -/
  recoverParsed : Command → JValue → Except Unit JValue
  /-- `sender.answer(text)`. -/
  answerText : Except Unit String
  /-- `str(uuid.uuid4())` by draw number. -/
  fresh : Nat → String
  /-- `datetime.utcnow().isoformat() + "Z"`. -/
  now : String
  /-- success of `datetime.fromisoformat`. -/
  isoOk : String → Bool

/-- One `bridge.send_command` call. -/
def dispatch (env : Env) (c : Command) (s : PState) : Option JValue × PState :=
  (env.bridge s.calls c, { s with calls := s.calls + 1 })

/-- `_is_error_response` from `pipeline.py`. -/
def is_error_response : Option JValue → Bool
  | none => true
  | some (.obj fs) =>
      (match jGet fs "status" with | some (.str s) => s = "error" | _ => false)
        || (match jGet fs "error" with | some v => jTruthy v | none => false)
  | some _ => false

/-- `error_response or \x7b\x7d` in `_attempt_recovery`: the error payload
handed to the prompt builder. -/
def errPayload : Option JValue → JValue
  | none => .obj []
  | some v => if jTruthy v then v else .obj []

/-- `_send_with_recovery(..., allow_retry=False)`: the recovery branch is
statically dead, so this is exactly one bridge dispatch.  The lemma
`send_with_recovery_false` below certifies the equivalence. -/
def sendNoRetry (env : Env) (c : Command) (s : PState) :
    Option JValue × PState :=
  dispatch env c s

/-- The corrected-command dispatch loop of `_attempt_recovery`: dispatch
each corrected command with recovery disabled, keeping the responses that
are not `None` (in order). -/
def recoveryLoop (env : Env) : List Command → PState → List JValue × PState
  | [], s => ([], s)
  | c :: cs, s =>
      let (r, s₁) := sendNoRetry env c s
      let (rs, s₂) := recoveryLoop env cs s₁
      (match r with | none => rs | some v => v :: rs, s₂)

/-- The corrected commands `_attempt_recovery` obtains from the LLM chain
(empty when the chain raises), together with the advanced uuid counter. -/
def recoveredCommands (env : Env) (failedCommand : Command)
    (errorResponse : Option JValue) (s : PState) : List Command × PState :=
  match env.recoverParsed failedCommand (errPayload errorResponse) with
  | .error _ => ([], s)
  | .ok raw =>
      let (enriched, u') := ensure_required_fields env.fresh env.now s.uuids raw
      ((validate_command env.isoOk enriched).commands, { s with uuids := u' })

/-- `_attempt_recovery` from `pipeline.py`. -/
def attempt_recovery (env : Env) (failedCommand : Command)
    (errorResponse : Option JValue) (s : PState) : Option JValue × PState :=
  match env.recoverParsed failedCommand (errPayload errorResponse) with
  | .error _ => (errorResponse, s)
  | .ok raw =>
      let (enriched, u') := ensure_required_fields env.fresh env.now s.uuids raw
      let recoveryResult := validate_command env.isoOk enriched
      let s₁ := { s with uuids := u' }
      if recoveryResult.commands.isEmpty then (errorResponse, s₁)
      else
        let (recoveryResponses, s₂) := recoveryLoop env recoveryResult.commands s₁
        (if recoveryResponses.isEmpty then errorResponse
         else some (.arr recoveryResponses), s₂)

/-- `_send_with_recovery` from `pipeline.py`. -/
def send_with_recovery (env : Env) (command : Command) (allowRetry : Bool)
    (s : PState) : Option JValue × PState :=
  let (response, s₁) := dispatch env command s
  if allowRetry ∧ is_error_response response then
    attempt_recovery env command response s₁
  else (response, s₁)

/-- With recovery disabled, `_send_with_recovery` is exactly one bridge
dispatch (the definition `sendNoRetry` used inside the recovery loop). -/
theorem send_with_recovery_false (env : Env) (c : Command) (s : PState) :
    send_with_recovery env c false s = sendNoRetry env c s := by
  simp [send_with_recovery, sendNoRetry, dispatch]

/-- Python `str.lower()`, restricted to the alphabets that occur in the
multi-action token list (ASCII and Russian Cyrillic). -/
def pyToLower (c : Char) : Char :=
  if 'A' ≤ c ∧ c ≤ 'Z' then Char.ofNat (c.toNat + 32)
  else if 'А' ≤ c ∧ c ≤ 'Я' then Char.ofNat (c.toNat + 32)
  else if c = 'Ё' then 'ё'
  else c

/-- The multi-action marker tokens of `_looks_multi_action`. -/
def multiTokens : List String :=
  [" и ", "затем", "потом", "после", "сначала", "далее", ","]

/-- `_looks_multi_action` from `pipeline.py`. -/
def looks_multi_action (text : String) : Bool :=
  let lowered := text.toList.map pyToLower
  multiTokens.any (fun t => containsSub t.toList lowered)

/-- `_expand_complex_request` from `pipeline.py`. -/
def expand_complex_request (env : Env) (text : String)
    (result : ValidationResult) (s : PState) : ValidationResult × PState :=
  if result.commands.length = 1 ∧ looks_multi_action text then
    match env.multistep with
    | .error _ => (result, s)
    | .ok raw =>
        let (enriched, u') := ensure_required_fields env.fresh env.now s.uuids raw
        let expanded := validate_command env.isoOk enriched
        let s₁ := { s with uuids := u' }
        if expanded.commands.length < 2 then (result, s₁) else (expanded, s₁)
  else (result, s)

/-- The fixed Russian apology used when the direct-answer LLM call raises. -/
def apologyText : String :=
  "Не удалось распознать команду и получить ответ от модели. " ++
    "Пожалуйста, повторите запрос."

/-- `_build_fallback_answer` from `pipeline.py`. -/
def build_fallback_answer (env : Env) (s : PState) : Command × PState :=
  let answer := match env.answerText with | .ok t => t | .error _ => apologyText
  ({ action := "answer_question", params := [("answer", .str answer)],
     uuid := env.fresh s.uuids, timestamp := env.now },
   { s with uuids := s.uuids + 1 })

/-- `IntentExtractor.extract` from `nlu.py`: LLM call, parse, backfill,
validate.  An exception from the send/parse chain propagates. -/
def extract (env : Env) (s : PState) : Except Unit (ValidationResult × PState) :=
  match env.sendParsed with
  | .error e => .error e
  | .ok data =>
      let (enriched, u') := ensure_required_fields env.fresh env.now s.uuids data
      .ok (validate_command env.isoOk enriched, { s with uuids := u' })

/-- The dispatch loop of `process_text`: one `_send_with_recovery` per valid
command, skipping `None`, extending with list-shaped results, appending
others. -/
def dispatchEach (env : Env) : List Command → PState → List JValue × PState
  | [], s => ([], s)
  | c :: cs, s =>
      let (r, s₁) := send_with_recovery env c true s
      let (rs, s₂) := dispatchEach env cs s₁
      (match r with
       | none => rs
       | some (.arr xs) => xs ++ rs
       | some v => v :: rs, s₂)

/-- `process_text` from `pipeline.py`. -/
def process_text (env : Env) (text : String) (s : PState) :
    Except Unit (Option JValue × PState) :=
  match extract env s with
  | .error e => .error e
  | .ok (result₀, s₁) =>
      let (result, s₂) := expand_complex_request env text result₀ s₁
      if result.commands.isEmpty then
        let (fallback, s₃) := build_fallback_answer env s₂
        let (resp, s₄) := dispatch env fallback s₃
        .ok (resp, s₄)
      else
        let (responses, s₅) := dispatchEach env result.commands s₂
        .ok ((match responses with
              | [] => none
              | [r] => some r
              | rs => some (.arr rs)), s₅)

/-! ## Theorems -/

/-- The list of top-level keys `_enrich_command` emits. -/
def enrichedKeys : List String := ["action", "params", "uuid", "timestamp"]

/-- C10: for every dict-shaped command object, the Field Backfiller returns
an object whose top-level keys are exactly `action`, `params`, `uuid`,
`timestamp`; every other top-level key of the input is dropped (after the
required-parameter folding has taken what it needs into `params`). -/
theorem enrich_command_keys (fresh : Nat → String) (now : String) (k : Nat)
    (cmd : List (String × JValue)) :
    ((enrich_command fresh now k cmd).1.map Prod.fst = enrichedKeys)
      ∧ (∀ key : String, key ∉ enrichedKeys →
          jGet (enrich_command fresh now k cmd).1 key = none) := by
  constructor
  · rfl
  · intro key hkey
    simp only [enrichedKeys, List.mem_cons, List.not_mem_nil, or_false,
      not_or] at hkey
    obtain ⟨h1, h2, h3, h4⟩ := hkey
    simp [enrich_command, jGet, List.find?, Ne.symm h1, Ne.symm h2,
      Ne.symm h3, Ne.symm h4]

/-- Witness for `enrich_command_keys` at a concrete input carrying an extra
top-level key `application` (folded into params) and `junk`. -/
theorem enrich_command_keys_witness :
    ("junk" ∉ enrichedKeys) ∧
      jGet (enrich_command (fun n => toString n) "NOW" 0
        [("action", .str "open_app"), ("application", .str "notepad"),
         ("junk", .num 1)]).1 "junk" = none :=
  ⟨by decide,
   (enrich_command_keys (fun n => toString n) "NOW" 0
      [("action", .str "open_app"), ("application", .str "notepad"),
       ("junk", .num 1)]).2 "junk" (by decide)⟩

/-- The per-corrected-command dispatch outcomes, before the presence filter
(one bridge response per corrected command, in order). -/
def rawCorrected (env : Env) : List Command → PState → List (Option JValue) × PState
  | [], s => ([], s)
  | c :: cs, s =>
      let (r, s₁) := dispatch env c s
      let (rs, s₂) := rawCorrected env cs s₁
      (r :: rs, s₂)

/-- The recovery loop keeps exactly the present responses, in order. -/
theorem recoveryLoop_eq (env : Env) (cs : List Command) (s : PState) :
    recoveryLoop env cs s =
      ((rawCorrected env cs s).1.filterMap id, (rawCorrected env cs s).2) := by
  induction cs generalizing s with
  | nil => simp [recoveryLoop, rawCorrected]
  | cons c cs ih =>
      simp only [recoveryLoop, rawCorrected, sendNoRetry, ih]
      cases h : env.bridge s.calls c <;> simp [dispatch, h]

/-- The recovery loop makes one bridge call per corrected command. -/
theorem recoveryLoop_calls (env : Env) (cs : List Command) (s : PState) :
    (recoveryLoop env cs s).2.calls = s.calls + cs.length := by
  induction cs generalizing s with
  | nil => simp [recoveryLoop]
  | cons c cs ih =>
      simp only [recoveryLoop, sendNoRetry, dispatch, ih, List.length_cons]
      omega

/-- C2: if the LLM call / parse / backfill / validate chain of the recovery
sub-protocol raises, or validation yields zero corrected commands, the
original erroneous dispatch response is returned unchanged. -/
theorem attempt_recovery_fallback (env : Env) (c : Command)
    (r : Option JValue) (s : PState)
    (h : env.recoverParsed c (errPayload r) = .error ()
        ∨ (recoveredCommands env c r s).1 = []) :
    (attempt_recovery env c r s).1 = r := by
  rcases hrp : env.recoverParsed c (errPayload r) with e | raw
  · simp [attempt_recovery, hrp]
  · rcases h with h | h
    · rw [hrp] at h; cases h
    · simp only [recoveredCommands, hrp] at h
      simp [attempt_recovery, hrp, h]

/-- Concrete environment for the `attempt_recovery_fallback` witness: the
recovery LLM chain raises. -/
def envC2 : Env where
  bridge := fun _ _ => none
  sendParsed := .error ()
  multistep := .error ()
  recoverParsed := fun _ _ => .error ()
  answerText := .error ()
  fresh := fun n => toString n
  now := "2025-06-01T00:00:00Z"
  isoOk := fun _ => true

/-- Witness for `attempt_recovery_fallback`: with a raising recovery chain,
the original error response comes back unchanged. -/
theorem attempt_recovery_fallback_witness :
    (attempt_recovery envC2 ⟨"system_status", [], "u0", "2025-06-01T00:00:00Z"⟩
        (some (.obj [("status", .str "error")])) ⟨0, 0⟩).1
      = some (.obj [("status", .str "error")]) :=
  attempt_recovery_fallback envC2 _ _ _ (Or.inl rfl)

/-- C1: recovery depth is capped at one level: a top-level dispatch performs
exactly `1 + (number of corrected commands dispatched)` bridge calls (the
corrected dispatches run with recovery disabled, cf.
`send_with_recovery_false`), hence at most `1 + (number of corrected
commands)` calls per originally valid command. -/
theorem send_with_recovery_call_cap (env : Env) (c : Command) (s : PState) :
    ((send_with_recovery env c true s).2.calls
        = s.calls + 1 +
          (if is_error_response (env.bridge s.calls c) then
            ((recoveredCommands env c (env.bridge s.calls c)
                { s with calls := s.calls + 1 }).1).length
          else 0))
      ∧ (send_with_recovery env c true s).2.calls
          ≤ s.calls + 1 +
            ((recoveredCommands env c (env.bridge s.calls c)
                { s with calls := s.calls + 1 }).1).length := by
  have key : (send_with_recovery env c true s).2.calls
      = s.calls + 1 +
        (if is_error_response (env.bridge s.calls c) then
          ((recoveredCommands env c (env.bridge s.calls c)
              { s with calls := s.calls + 1 }).1).length
        else 0) := by
    simp only [send_with_recovery, dispatch, true_and]
    by_cases herr : is_error_response (env.bridge s.calls c)
    · simp only [herr, if_true]
      rcases hrp : env.recoverParsed c (errPayload (env.bridge s.calls c)) with e | raw
      · simp [attempt_recovery, hrp, recoveredCommands]
      · simp only [attempt_recovery, hrp, recoveredCommands]
        by_cases hcs : (validate_command env.isoOk
            (ensure_required_fields env.fresh env.now
              ({ s with calls := s.calls + 1 } : PState).uuids raw).1).commands.isEmpty
        · simp [hcs, List.isEmpty_iff.mp hcs]
        · simp only [hcs, if_false]
          have := recoveryLoop_calls env
            (validate_command env.isoOk
              (ensure_required_fields env.fresh env.now
                ({ s with calls := s.calls + 1 } : PState).uuids raw).1).commands
            { uuids := (ensure_required_fields env.fresh env.now
                ({ s with calls := s.calls + 1 } : PState).uuids raw).2,
              calls := s.calls + 1 }
          split <;> simp_all
    · simp [herr]
  exact ⟨key, by rw [key]; split <;> omega⟩

/-- Concrete environment refuting the corrected-dispatch error filter: the
recovery chain yields one corrected command and the bridge answers it with a
structured error response. -/
def envC7 : Env where
  bridge := fun _ _ => some (.obj [("status", .str "error"), ("error", .str "still failing")])
  sendParsed := .error ()
  multistep := .error ()
  recoverParsed := fun _ _ => .ok (.obj [("action", .str "system_status"), ("params", .obj []),
    ("uuid", .str "r1"), ("timestamp", .str "2025-06-01T00:00:00Z")])
  answerText := .error ()
  fresh := fun n => toString n
  now := "2025-06-01T00:00:00Z"
  isoOk := fun _ => true

/-- C7 counterexample: a corrected command's dispatch response that is
erroneous (status `"error"`, non-empty `error` field) is nevertheless
collected into the recovery result — only `None` responses are excluded, so
the claimed filter on erroneous responses does not exist. -/
theorem recovery_collects_error_response_cex :
    (attempt_recovery envC7
        ⟨"open_app", [("application", .str "unknown")], "u0", "2025-06-01T00:00:00Z"⟩
        (some (.obj [("status", .str "error")])) ⟨0, 0⟩).1
      = some (.arr [.obj [("status", .str "error"), ("error", .str "still failing")]])
    ∧ is_error_response
        (some (.obj [("status", .str "error"), ("error", .str "still failing")])) = true := by
  set_option maxRecDepth 4000 in exact ⟨rfl, rfl⟩

/-- C7 amended: when the recovery chain succeeds and yields at least one
corrected command, the collected set is exactly the *present* responses of
the corrected dispatches, in order — a response is excluded iff it is
absent (`None`); erroneous-but-present responses are collected. -/
theorem attempt_recovery_collects_present (env : Env) (c : Command)
    (r : Option JValue) (s : PState) (raw : JValue)
    (hok : env.recoverParsed c (errPayload r) = .ok raw)
    (hne : (recoveredCommands env c r s).1 ≠ []) :
    (attempt_recovery env c r s).1 =
      (let collected := ((rawCorrected env (recoveredCommands env c r s).1
          (recoveredCommands env c r s).2).1).filterMap id
       if collected.isEmpty then r else some (.arr collected)) := by
  simp only [recoveredCommands, hok] at hne ⊢
  simp only [attempt_recovery, hok]
  rw [if_neg (by simpa [List.isEmpty_iff] using hne)]
  rw [recoveryLoop_eq]

/-- The C7 environment with a bridge that answers corrected commands
successfully. -/
def envC7b : Env :=
  { envC7 with bridge := fun _ _ => some (.obj [("status", .str "ok")]) }

/-- Witness for `attempt_recovery_collects_present`: one corrected command
whose (successful) response is collected. -/
theorem attempt_recovery_collects_present_witness :
    (attempt_recovery envC7b ⟨"open_app", [("application", .str "unknown")], "u0",
        "2025-06-01T00:00:00Z"⟩ (some (.obj [("status", .str "error")])) ⟨0, 0⟩).1
      = some (.arr [.obj [("status", .str "ok")]]) :=
  attempt_recovery_collects_present envC7b _ _ _ _ rfl
    (set_option maxRecDepth 4000 in List.cons_ne_nil _ _)

/-- C5: when extraction yielded exactly one valid command and the text
carries a multi-action marker, the orchestrator consults the multi-step LLM
chain; an exception there is swallowed (original result kept, state
untouched), and otherwise the re-derived result replaces the original iff
it contains at least two valid commands. -/
theorem expand_complex_request_spec (env : Env) (text : String)
    (result : ValidationResult) (s : PState)
    (h1 : result.commands.length = 1) (h2 : looks_multi_action text = true) :
    (env.multistep = .error () →
        expand_complex_request env text result s = (result, s))
    ∧ (∀ raw : JValue, env.multistep = .ok raw →
        (expand_complex_request env text result s).1 =
          (let expanded := validate_command env.isoOk
            (ensure_required_fields env.fresh env.now s.uuids raw).1
           if expanded.commands.length < 2 then result else expanded)) := by
  constructor
  · intro herr
    simp [expand_complex_request, h1, h2, herr]
  · intro raw hok
    simp only [expand_complex_request, h1, h2, and_self, if_true, hok]
    split <;> simp_all

/-- Concrete environment for the `expand_complex_request_spec` witness: the
multi-step chain yields two valid commands. -/
def envC5 : Env where
  bridge := fun _ _ => some (.obj [("status", .str "ok")])
  sendParsed := .error ()
  multistep := .ok (.arr [
    .obj [("action", .str "open_app"), ("params", .obj [("application", .str "telegram")]),
          ("uuid", .str "u1"), ("timestamp", .str "2025-06-01T00:00:00")],
    .obj [("action", .str "open_app"), ("params", .obj [("application", .str "calculator")]),
          ("uuid", .str "u2"), ("timestamp", .str "2025-06-01T00:00:00")]])
  recoverParsed := fun _ _ => .error ()
  answerText := .error ()
  fresh := fun n => toString n
  now := "2025-06-01T00:00:00Z"
  isoOk := fun _ => true

/-- Witness for `expand_complex_request_spec`: a comma-marked text and a
single-command result are expanded to the two re-derived commands. -/
theorem expand_complex_request_spec_witness :
    ((expand_complex_request envC5 "open telegram, then calculator"
        ⟨true, [], [⟨"open_app", [("application", .str "telegram")], "u1",
          "2025-06-01T00:00:00"⟩]⟩ ⟨0, 0⟩).1).commands.map Command.action
      = ["open_app", "open_app"] := by
  have h := (expand_complex_request_spec envC5 "open telegram, then calculator"
    ⟨true, [], [⟨"open_app", [("application", .str "telegram")], "u1",
      "2025-06-01T00:00:00"⟩]⟩ ⟨0, 0⟩ rfl (by decide)).2 _ rfl
  rw [h]
  rfl

/-- C3: when extraction plus expansion yields zero valid commands, the
orchestrator builds one synthetic `answer_question` command whose `params`
carry the LLM's direct answer under the key `answer` (the fixed Russian
apology when the direct-answer call raises), dispatches it to the bridge
once, and returns the bridge's response. -/
theorem process_text_fallback (env : Env) (text : String) (s : PState)
    (res0 res : ValidationResult) (s₁ s₂ : PState)
    (hx : extract env s = .ok (res0, s₁))
    (he : expand_complex_request env text res0 s₁ = (res, s₂))
    (hempty : res.commands = []) :
    process_text env text s =
      .ok (env.bridge s₂.calls
            ⟨"answer_question",
             [("answer", .str (match env.answerText with
                | .ok t => t
                | .error _ => apologyText))],
             env.fresh s₂.uuids, env.now⟩,
           ⟨s₂.uuids + 1, s₂.calls + 1⟩) := by
  simp [process_text, hx, he, hempty, build_fallback_answer, dispatch]

/-- Concrete environment for the `process_text_fallback` witness: extraction
produces a command with a missing required field, the direct answer
succeeds. -/
def envC3 : Env where
  bridge := fun _ _ => some (.obj [("status", .str "ok")])
  sendParsed := .ok (.obj [("action", .str "answer_question")])
  multistep := .error ()
  recoverParsed := fun _ _ => .error ()
  answerText := .ok "ready answer"
  fresh := fun n => "id" ++ toString n
  now := "2025-06-01T00:00:00"
  isoOk := fun _ => true

/-- Witness for `process_text_fallback`: the synthetic answer command is
dispatched and the bridge's response returned. -/
theorem process_text_fallback_witness :
    process_text envC3 "hello" ⟨0, 0⟩
      = .ok (some (.obj [("status", .str "ok")]), ⟨2, 1⟩) :=
  process_text_fallback envC3 "hello" ⟨0, 0⟩
    ⟨false, [⟨"command.answer", "Missing required field"⟩], []⟩
    ⟨false, [⟨"command.answer", "Missing required field"⟩], []⟩
    ⟨1, 0⟩ ⟨1, 0⟩ rfl rfl rfl

/-- The per-command dispatch outcomes of the orchestrator's dispatch stage,
before flattening (one outcome per originally valid command, in order). -/
def rawResponses (env : Env) : List Command → PState → List (Option JValue) × PState
  | [], s => ([], s)
  | c :: cs, s =>
      let (r, s₁) := send_with_recovery env c true s
      let (rs, s₂) := rawResponses env cs s₁
      (r :: rs, s₂)

/-- Flattening of the per-command outcomes: drop absent entries, splice
list-shaped entries, keep the rest in order. -/
def flattenResponses : List (Option JValue) → List JValue
  | [] => []
  | none :: rest => flattenResponses rest
  | some (.arr xs) :: rest => xs ++ flattenResponses rest
  | some v :: rest => v :: flattenResponses rest

/-- The orchestrator's dispatch loop computes exactly the flattening of the
per-command outcomes. -/
theorem dispatchEach_eq (env : Env) (cs : List Command) (s : PState) :
    dispatchEach env cs s =
      (flattenResponses (rawResponses env cs s).1, (rawResponses env cs s).2) := by
  induction cs generalizing s with
  | nil => simp [dispatchEach, rawResponses, flattenResponses]
  | cons c cs ih =>
      simp only [dispatchEach, rawResponses, ih]
      cases h : (send_with_recovery env c true s).1 with
      | none => simp [flattenResponses]
      | some v => cases v <;> simp [flattenResponses]

/-- C6: after collecting one outcome per valid command, flattening
list-shaped recovery results and discarding absent entries, the orchestrator
returns nothing for an empty aggregate, the sole entry itself for a
singleton aggregate, and the full list otherwise. -/
theorem process_text_aggregation (env : Env) (text : String) (s : PState)
    (res0 res : ValidationResult) (s₁ s₂ : PState)
    (hx : extract env s = .ok (res0, s₁))
    (he : expand_complex_request env text res0 s₁ = (res, s₂))
    (hne : res.commands ≠ []) :
    process_text env text s =
      .ok ((match flattenResponses (rawResponses env res.commands s₂).1 with
            | [] => none
            | [r] => some r
            | rs => some (.arr rs)),
           (rawResponses env res.commands s₂).2) := by
  simp only [process_text, hx, he]
  rw [if_neg (by simpa [List.isEmpty_iff] using hne)]
  rw [dispatchEach_eq]

/-- Concrete environment for the `process_text_aggregation` witness: two
valid commands, both dispatches succeed. -/
def envC6 : Env where
  bridge := fun n _ => some (.obj [("status", .str "ok"), ("n", .num n)])
  sendParsed := .ok (.arr [
    .obj [("action", .str "system_status"), ("params", .obj []),
          ("uuid", .str "u1"), ("timestamp", .str "2025-06-01T00:00:00")],
    .obj [("action", .str "open_app"), ("params", .obj [("application", .str "notepad")]),
          ("uuid", .str "u2"), ("timestamp", .str "2025-06-01T00:00:00")]])
  multistep := .error ()
  recoverParsed := fun _ _ => .error ()
  answerText := .error ()
  fresh := fun n => toString n
  now := "2025-06-01T00:00:00Z"
  isoOk := fun _ => true

/-- Witness for `process_text_aggregation`: two responses come back as a
two-element list. -/
theorem process_text_aggregation_witness :
    process_text envC6 "status and notepad" ⟨0, 0⟩
      = .ok (some (.arr [.obj [("status", .str "ok"), ("n", .num 0)],
                         .obj [("status", .str "ok"), ("n", .num 1)]]), ⟨0, 2⟩) :=
  process_text_aggregation envC6 "status and notepad" ⟨0, 0⟩
    ⟨true, [], [⟨"system_status", [], "u1", "2025-06-01T00:00:00"⟩,
                ⟨"open_app", [("application", .str "notepad")], "u2",
                  "2025-06-01T00:00:00"⟩]⟩
    ⟨true, [], [⟨"system_status", [], "u1", "2025-06-01T00:00:00"⟩,
                ⟨"open_app", [("application", .str "notepad")], "u2",
                  "2025-06-01T00:00:00"⟩]⟩
    ⟨0, 0⟩ ⟨0, 0⟩ rfl rfl (List.cons_ne_nil _ _)

/-! ## Validator characterization (claims about `validate_command`) -/

/-- The timestamp acceptance test of `_validate_single_command` as a
predicate: a non-empty string that is ISO-8601 after the trailing-`Z`
normalization. -/
def tsOkB (isoOk : String → Bool) : Option JValue → Bool
  | some (.str s) => s ≠ "" && isoOk (if pyEndsWith s 'Z' then replaceZ s else s)
  | _ => false

/-- A raw dict-shaped command entry is individually well-formed: validating
it produces no issue (position-independent: the position only enters issue
field strings). -/
def commandWellFormed (isoOk : String → Bool) (d : List (String × JValue)) : Bool :=
  actionOk (jGet d "action")
    && (match (jGet d "params").getD (.obj []) with | .obj _ => true | _ => false)
    && (requiredOf (jGet d "action")).all
        (fun f => (jGet (paramsFields ((jGet d "params").getD (.obj []))) f).isSome)
    && uuidOk (jGet d "uuid")
    && tsOkB isoOk (jGet d "timestamp")

/-- A raw entry of the command list is individually well-formed. -/
def entryWellFormed (isoOk : String → Bool) : JValue → Bool
  | .obj fs => commandWellFormed isoOk fs
  | _ => false

/-- What the per-entry loop of `validate_command` produces for the entry at
index `i` of an `n`-entry payload. -/
def entryOut (isoOk : String → Bool) (n i : Nat) :
    JValue → List ValidationIssue × Option Command
  | .obj fs => validate_single_command isoOk fs (entryPfx n i)
  | _ => ([⟨entryPfx n i, "Each command must be an object"⟩], none)

theorem actionIssues_nil (p : String) (a : Option JValue) :
    actionIssues p a = [] ↔ actionOk a = true := by
  simp only [actionIssues]; split <;> simp_all

theorem paramsIssues_nil (p : String) (v : JValue) :
    paramsIssues p v = []
      ↔ (match v with | .obj _ => true | _ => false) = true := by
  cases v <;> simp [paramsIssues]

theorem missingIssues_nil (p : String) (a : Option JValue)
    (ps : List (String × JValue)) :
    missingIssues p a ps = []
      ↔ (requiredOf a).all (fun f => (jGet ps f).isSome) = true := by
  simp [missingIssues, List.filter_eq_nil_iff, List.all_eq_true,
    Option.isNone_iff_eq_none, Option.isSome_iff_exists]
  constructor
  · intro h f hf
    rcases hv : jGet ps f with _ | v
    · exact absurd hv (h f hf)
    · exact ⟨v, rfl⟩
  · intro h f hf hnone
    rcases h f hf with ⟨v, hv⟩
    rw [hv] at hnone; cases hnone

theorem uuidIssues_nil (p : String) (v : Option JValue) :
    uuidIssues p v = [] ↔ uuidOk v = true := by
  simp only [uuidIssues]; split <;> simp_all

theorem tsIssues_nil (isoOk : String → Bool) (p : String) (v : Option JValue) :
    tsIssues isoOk p v = [] ↔ tsOkB isoOk v = true := by
  rcases v with _ | u
  · simp [tsIssues, tsOkB]
  · cases u <;> simp [tsIssues, tsOkB]
    rename_i s
    by_cases hs : s = "" <;>
      by_cases hi : isoOk (if pyEndsWith s 'Z' then replaceZ s else s) = true <;>
        simp_all

/-- The issue list of `_validate_single_command`, unfolded. -/
theorem validate_single_fst (isoOk : String → Bool)
    (d : List (String × JValue)) (pfx : String) :
    (validate_single_command isoOk d pfx).1 =
      actionIssues pfx (jGet d "action")
        ++ paramsIssues pfx ((jGet d "params").getD (.obj []))
        ++ missingIssues pfx (jGet d "action")
            (paramsFields ((jGet d "params").getD (.obj [])))
        ++ uuidIssues pfx (jGet d "uuid")
        ++ tsIssues isoOk pfx (jGet d "timestamp") := rfl

/-- The command of `_validate_single_command` is produced iff the issue list
is empty. -/
theorem validate_single_snd (isoOk : String → Bool)
    (d : List (String × JValue)) (pfx : String) :
    (validate_single_command isoOk d pfx).2 =
      if ((validate_single_command isoOk d pfx).1).isEmpty then
        some { action := match jGet d "action" with | some (.str s) => s | _ => ""
               params := paramsFields ((jGet d "params").getD (.obj []))
               uuid := match jGet d "uuid" with | some (.str s) => s | _ => ""
               timestamp := match jGet d "timestamp" with | some (.str s) => s | _ => "" }
      else none := rfl

/-- A raw dict produces no issue iff it is individually well-formed —
independently of the field-path prefix. -/
theorem validate_single_issues_nil (isoOk : String → Bool)
    (d : List (String × JValue)) (pfx : String) :
    ((validate_single_command isoOk d pfx).1 = [])
      ↔ commandWellFormed isoOk d = true := by
  rw [validate_single_fst]
  simp only [List.append_eq_nil, commandWellFormed, Bool.and_eq_true,
    actionIssues_nil, paramsIssues_nil, missingIssues_nil, uuidIssues_nil,
    tsIssues_nil]

/-- A Command is produced for a dict entry iff it is individually
well-formed. -/
theorem validate_single_isSome (isoOk : String → Bool)
    (d : List (String × JValue)) (pfx : String) :
    ((validate_single_command isoOk d pfx).2).isSome
      = commandWellFormed isoOk d := by
  rw [validate_single_snd]
  by_cases h : (validate_single_command isoOk d pfx).1 = []
  · simp [List.isEmpty_iff.mpr h, (validate_single_issues_nil isoOk d pfx).mp h]
  · have : commandWellFormed isoOk d = false := by
      rcases hb : commandWellFormed isoOk d
      · rfl
      · exact absurd ((validate_single_issues_nil isoOk d pfx).mpr hb) h
    simp [this, h, List.isEmpty_iff]

/-- The per-entry loop, closed form: issues are the concatenation of the
per-entry issue lists, commands the in-order selection of produced
commands. -/
theorem validateEntries_spec (isoOk : String → Bool) (n : Nat) :
    ∀ (es : List JValue) (i : Nat),
    validateEntries isoOk n i es
      = (((es.enumFrom i).map (fun p => (entryOut isoOk n p.1 p.2).1)).flatten,
         (es.enumFrom i).filterMap (fun p => (entryOut isoOk n p.1 p.2).2)) := by
  intro es
  induction es with
  | nil => intro i; simp [validateEntries]
  | cons e rest ih =>
      intro i
      cases e <;>
        simp [validateEntries, entryOut, ih, List.filterMap_cons]
      cases hc : (validate_single_command isoOk (by assumption) (entryPfx n i)).2 <;>
        simp [hc]

/-- `length ∘ filterMap` counts the inputs mapped to `some`. -/
theorem length_filterMap_eq_countP {α β : Type} (f : α → Option β) :
    ∀ l : List α, (l.filterMap f).length = l.countP (fun a => (f a).isSome) := by
  intro l
  induction l with
  | nil => simp
  | cons a l ih =>
      cases h : f a <;> simp [List.filterMap_cons, h, ih, List.countP_cons]

/-- Counting a property of the values ignores the enumeration indices. -/
theorem countP_enumFrom {α : Type} (g : α → Bool) :
    ∀ (l : List α) (i : Nat),
      (l.enumFrom i).countP (fun p => g p.2) = l.countP g := by
  intro l
  induction l with
  | nil => simp
  | cons a l ih =>
      intro i
      by_cases h : g a <;> simp [List.countP_cons, ih, h]

/-- `get?` membership in the enumeration. -/
theorem get?_mem_enumFrom {α : Type} :
    ∀ (es : List α) (i j : Nat) (e : α), es.get? j = some e →
      (i + j, e) ∈ es.enumFrom i := by
  intro es
  induction es with
  | nil => intro i j e h; cases j <;> cases h
  | cons a rest ih =>
      intro i j e h
      cases j with
      | zero => cases h; simp
      | succ j =>
          have h2 := ih (i + 1) j e h
          have hidx : i + (j + 1) = (i + 1) + j := by omega
          rw [List.enumFrom_cons, hidx]
          exact List.mem_cons_of_mem _ h2

/-- Every issue a dict entry contributes carries its field-path prefix
followed by a dot. -/
theorem validate_single_field_prefixed (isoOk : String → Bool)
    (d : List (String × JValue)) (pfx : String) (iss : ValidationIssue)
    (h : iss ∈ (validate_single_command isoOk d pfx).1) :
    (pfx ++ ".").toList <+: iss.field.toList := by
  rw [validate_single_fst] at h
  simp only [List.mem_append] at h
  have dot : ∀ rest : String, (pfx ++ "." ++ rest).toList
      = (pfx ++ ".").toList ++ rest.toList := by
    intro rest; simp [String.toList]
  rcases h with ((((h | h) | h) | h) | h)
  · simp only [actionIssues] at h
    split at h <;> simp_all
  · simp only [paramsIssues] at h
    split at h <;> simp_all
  · simp only [missingIssues, List.mem_map] at h
    rcases h with ⟨f, _, rfl⟩
    exact ⟨f.toList, (dot f).symm⟩
  · simp only [uuidIssues] at h
    split at h <;> simp_all
  · simp only [tsIssues] at h
    split at h
    · split at h
      · simp_all
      · split at h <;> simp_all
    · simp_all

/-- A dict entry that produced no Command contributed at least one issue,
and that issue is rooted at the entry's field path. -/
theorem validate_single_bad_issue (isoOk : String → Bool)
    (d : List (String × JValue)) (pfx : String)
    (h : (validate_single_command isoOk d pfx).2 = none) :
    ∃ iss ∈ (validate_single_command isoOk d pfx).1,
      (pfx ++ ".").toList <+: iss.field.toList := by
  have hne : (validate_single_command isoOk d pfx).1 ≠ [] := by
    intro hnil
    rw [validate_single_snd, List.isEmpty_iff.mpr hnil] at h
    simp at h
  rcases hl : (validate_single_command isoOk d pfx).1 with _ | ⟨iss, rest⟩
  · exact absurd hl hne
  · exact ⟨iss, List.mem_cons_self _ _,
      validate_single_field_prefixed isoOk d pfx iss
        (by rw [hl]; exact List.mem_cons_self _ _)⟩

/-- A Command is produced for an entry iff the entry is individually
well-formed, at any position. -/
theorem entryOut_isSome (isoOk : String → Bool) (n i : Nat) (e : JValue) :
    ((entryOut isoOk n i e).2).isSome = entryWellFormed isoOk e := by
  cases e <;> simp [entryOut, entryWellFormed, validate_single_isSome]

/-- `validate_command` on a list payload: the commands, unfolded. -/
theorem validate_command_arr_commands (isoOk : String → Bool)
    (entries : List JValue) :
    (validate_command isoOk (.arr entries)).commands
      = (validateEntries isoOk entries.length 0 entries).2 := rfl

/-- `validate_command` on a list payload: the issues, unfolded. -/
theorem validate_command_arr_issues (isoOk : String → Bool)
    (entries : List JValue) :
    (validate_command isoOk (.arr entries)).issues
      = (if entries.isEmpty then
          [(⟨"commands", "No commands provided"⟩ : ValidationIssue)]
         else [])
        ++ (validateEntries isoOk entries.length 0 entries).1 := rfl

/-- Validating a list of N raw entries, on the non-raising path: exactly
the individually well-formed ones survive as Commands, in input order
(K of them), and each ill-formed entry contributes at least one issue
rooted at that entry's own field path. -/
theorem validate_command_independent (isoOk : String → Bool)
    (entries : List JValue) :
    ((validate_command isoOk (.arr entries)).commands
        = (entries.enumFrom 0).filterMap
            (fun p => (entryOut isoOk entries.length p.1 p.2).2))
    ∧ ((validate_command isoOk (.arr entries)).commands.length
        = entries.countP (entryWellFormed isoOk))
    ∧ (∀ (i : Nat) (e : JValue), entries.get? i = some e →
        entryWellFormed isoOk e = false →
          ∃ iss ∈ (validate_command isoOk (.arr entries)).issues,
            iss.field = entryPfx entries.length i
              ∨ (entryPfx entries.length i ++ ".").toList <+: iss.field.toList) := by
  have hcmds : (validate_command isoOk (.arr entries)).commands
      = (entries.enumFrom 0).filterMap
          (fun p => (entryOut isoOk entries.length p.1 p.2).2) := by
    rw [validate_command_arr_commands, validateEntries_spec]
  refine ⟨hcmds, ?_, ?_⟩
  · rw [hcmds, length_filterMap_eq_countP]
    simp only [entryOut_isSome]
    exact countP_enumFrom (entryWellFormed isoOk) entries 0
  · intro i e hget hbad
    have hmem : (i, e) ∈ entries.enumFrom 0 := by
      simpa using get?_mem_enumFrom entries 0 i e hget
    have hiss : ∃ iss ∈ (entryOut isoOk entries.length i e).1,
        iss.field = entryPfx entries.length i
          ∨ (entryPfx entries.length i ++ ".").toList <+: iss.field.toList := by
      cases e with
      | obj fs =>
          have hnone : (validate_single_command isoOk fs
              (entryPfx entries.length i)).2 = none := by
            have := validate_single_isSome isoOk fs (entryPfx entries.length i)
            rw [entryWellFormed] at hbad
            rw [hbad] at this
            exact Option.not_isSome_iff_eq_none.mp (by simp [this])
          rcases validate_single_bad_issue isoOk fs (entryPfx entries.length i)
            hnone with ⟨iss, hin, hpre⟩
          exact ⟨iss, hin, Or.inr hpre⟩
      | null => exact ⟨_, List.mem_cons_self _ _, Or.inl rfl⟩
      | bool b => exact ⟨_, List.mem_cons_self _ _, Or.inl rfl⟩
      | num m => exact ⟨_, List.mem_cons_self _ _, Or.inl rfl⟩
      | str s => exact ⟨_, List.mem_cons_self _ _, Or.inl rfl⟩
      | arr xs => exact ⟨_, List.mem_cons_self _ _, Or.inl rfl⟩
    rcases hiss with ⟨iss, hin, hfield⟩
    refine ⟨iss, ?_, hfield⟩
    rw [validate_command_arr_issues, validateEntries_spec]
    apply List.mem_append_right
    exact List.mem_flatten.mpr
      ⟨(entryOut isoOk entries.length i e).1, List.mem_map.mpr ⟨(i, e), hmem, rfl⟩, hin⟩

/-- When no dict entry declares an unhashable action, the per-entry loop
returns normally with the total loop's output. -/
theorem validateEntriesExc_ok (isoOk : String → Bool) (n : Nat) :
    ∀ (es : List JValue) (i : Nat), (∀ e ∈ es, entryActionHashable e = true) →
      validateEntriesExc isoOk n i es = .ok (validateEntries isoOk n i es) := by
  intro es
  induction es with
  | nil => intro i _; rfl
  | cons e rest ih =>
      intro i h
      have hrest := ih (i + 1) (fun x hx => h x (List.mem_cons_of_mem e hx))
      cases e with
      | obj fs =>
          have he : actionHashable (jGet fs "action") = true := by
            simpa [entryActionHashable] using h _ (List.mem_cons_self _ rest)
          cases hv : validateEntries isoOk n (i + 1) rest with
          | mk restIssues restCmds =>
              rw [hv] at hrest
              simp [validateEntriesExc, validateEntries, he, hrest, hv]
      | null => simp [validateEntriesExc, validateEntries, hrest]
      | bool b => simp [validateEntriesExc, validateEntries, hrest]
      | num m => simp [validateEntriesExc, validateEntries, hrest]
      | str s => simp [validateEntriesExc, validateEntries, hrest]
      | arr xs => simp [validateEntriesExc, validateEntries, hrest]

/-- The payload whose first entry is well-formed and whose second entry
declares its action as a JSON array (an unhashable dict key). -/
def payloadC4 : List JValue := [
  .obj [("action", .str "system_status"), ("params", .obj []),
        ("uuid", .str "u1"), ("timestamp", .str "2025-06-01T00:00:00")],
  .obj [("action", .arr [.str "open_app"]), ("params", .obj []),
        ("uuid", .str "u2"), ("timestamp", .str "2025-06-01T00:00:00")]]

/-- C4 counterexample: with one well-formed entry (K = 1) and a sibling
whose declared action is an array, the validator raises `TypeError` at the
`action not in ALLOWED_ACTIONS` membership test and returns no
`ValidationResult` at all — the well-formed sibling is lost and the
ill-formed entry contributes no issue. -/
theorem validate_command_raises_cex :
    validate_command_exc (fun _ => true) (.arr payloadC4) = .error ()
      ∧ payloadC4.countP (entryWellFormed (fun _ => true)) = 1 :=
  ⟨rfl, by decide⟩

/-- C4 amended: provided no dict entry declares an unhashable (array or
object) action — otherwise the validator raises `TypeError` and returns
nothing — validation returns normally and keeps exactly the individually
well-formed entries as Commands, in input order (K of them), and each
ill-formed entry contributes at least one issue rooted at that entry's own
field path; sibling failures never drop a valid command. -/
theorem validate_command_independent_hashable (isoOk : String → Bool)
    (entries : List JValue)
    (hhash : ∀ e ∈ entries, entryActionHashable e = true) :
    (validate_command_exc isoOk (.arr entries)
        = .ok (validate_command isoOk (.arr entries)))
    ∧ ((validate_command isoOk (.arr entries)).commands
        = (entries.enumFrom 0).filterMap
            (fun p => (entryOut isoOk entries.length p.1 p.2).2))
    ∧ ((validate_command isoOk (.arr entries)).commands.length
        = entries.countP (entryWellFormed isoOk))
    ∧ (∀ (i : Nat) (e : JValue), entries.get? i = some e →
        entryWellFormed isoOk e = false →
          ∃ iss ∈ (validate_command isoOk (.arr entries)).issues,
            iss.field = entryPfx entries.length i
              ∨ (entryPfx entries.length i ++ ".").toList <+: iss.field.toList) := by
  refine ⟨?_, (validate_command_independent isoOk entries).1,
    (validate_command_independent isoOk entries).2.1,
    (validate_command_independent isoOk entries).2.2⟩
  have hb := validateEntriesExc_ok isoOk entries.length entries 0 hhash
  simp [validate_command_exc, validate_command, normalize_command_payload, hb]

/-- Witness for `validate_command_independent_hashable`: one valid, one
invalid and one non-dict entry, all with hashable actions — the validator
returns normally, the valid sibling survives, the bad ones contribute
issues. -/
theorem validate_command_independent_hashable_witness :
    (validate_command_exc (fun _ => true) (.arr [
        .obj [("action", .str "system_status"), ("params", .obj []),
              ("uuid", .str "u1"), ("timestamp", .str "2025-06-01T00:00:00")],
        .obj [("action", .str "open_app"), ("params", .obj []),
              ("uuid", .str "u2"), ("timestamp", .str "2025-06-01T00:00:00")],
        .num 3])
      = .ok (validate_command (fun _ => true) (.arr [
        .obj [("action", .str "system_status"), ("params", .obj []),
              ("uuid", .str "u1"), ("timestamp", .str "2025-06-01T00:00:00")],
        .obj [("action", .str "open_app"), ("params", .obj []),
              ("uuid", .str "u2"), ("timestamp", .str "2025-06-01T00:00:00")],
        .num 3])))
    ∧ ((validate_command (fun _ => true) (.arr [
        .obj [("action", .str "system_status"), ("params", .obj []),
              ("uuid", .str "u1"), ("timestamp", .str "2025-06-01T00:00:00")],
        .obj [("action", .str "open_app"), ("params", .obj []),
              ("uuid", .str "u2"), ("timestamp", .str "2025-06-01T00:00:00")],
        .num 3])).commands.length = 1)
    ∧ (∃ iss ∈ (validate_command (fun _ => true) (.arr [
        .obj [("action", .str "system_status"), ("params", .obj []),
              ("uuid", .str "u1"), ("timestamp", .str "2025-06-01T00:00:00")],
        .obj [("action", .str "open_app"), ("params", .obj []),
              ("uuid", .str "u2"), ("timestamp", .str "2025-06-01T00:00:00")],
        .num 3])).issues,
        iss.field = entryPfx 3 2
          ∨ (entryPfx 3 2 ++ ".").toList <+: iss.field.toList) := by
  have h := validate_command_independent_hashable (fun _ => true)
    [.obj [("action", .str "system_status"), ("params", .obj []),
           ("uuid", .str "u1"), ("timestamp", .str "2025-06-01T00:00:00")],
     .obj [("action", .str "open_app"), ("params", .obj []),
           ("uuid", .str "u2"), ("timestamp", .str "2025-06-01T00:00:00")],
     .num 3] (by decide)
  exact ⟨h.1, by rw [h.2.2.1]; decide, h.2.2.2 2 (.num 3) rfl rfl⟩

/-- An issue contributed by the entry at index `i` is among the issues of
the whole validation. -/
theorem entry_issue_mem (isoOk : String → Bool) (entries : List JValue) (i : Nat)
    (e : JValue) (iss : ValidationIssue) (hget : entries.get? i = some e)
    (hin : iss ∈ (entryOut isoOk entries.length i e).1) :
    iss ∈ (validate_command isoOk (.arr entries)).issues := by
  rw [validate_command_arr_issues, validateEntries_spec]
  apply List.mem_append_right
  exact List.mem_flatten.mpr
    ⟨_, List.mem_map.mpr
        ⟨(i, e), by simpa using get?_mem_enumFrom entries 0 i e hget, rfl⟩, hin⟩

/-- The two-entry payload whose second command misses its required
`application` parameter. -/
def payloadC9 : List JValue := [
  .obj [("action", .str "system_status"), ("params", .obj []),
        ("uuid", .str "u1"), ("timestamp", .str "2025-06-01T00:00:00")],
  .obj [("action", .str "open_app"), ("params", .obj []),
        ("uuid", .str "u2"), ("timestamp", .str "2025-06-01T00:00:00")]]

/-- C9 counterexample: the missing-parameter issue for the second command is
recorded under `commands[1].application` — there is no `params` segment in
the dotted path, contradicting the claimed `commands[1].params.application`
shape. -/
theorem missing_param_field_path_cex :
    (∃ iss ∈ (validate_command (fun _ => true) (.arr payloadC9)).issues,
        iss.field = "commands[1].application")
    ∧ (∀ iss ∈ (validate_command (fun _ => true) (.arr payloadC9)).issues,
        iss.field ≠ "commands[1].params.application") := by
  decide

/-- C9 amended: for a dict entry whose allowed action requires parameter
`f` and whose `params` misses `f`, the validator records the issue
`⟨pfx ++ "." ++ f, "Missing required field"⟩` — the entry's field-path
prefix joined directly with the parameter name, without a `params`
segment. -/
theorem missing_param_issue_path (isoOk : String → Bool) (entries : List JValue)
    (i : Nat) (fs : List (String × JValue)) (a : String) (req : List String)
    (f : String)
    (hget : entries.get? i = some (.obj fs))
    (ha : jGet fs "action" = some (.str a))
    (hreq : allowedActions a = some req)
    (hf : f ∈ req)
    (hmiss : jGet (paramsFields ((jGet fs "params").getD (.obj []))) f = none) :
    ∃ iss ∈ (validate_command isoOk (.arr entries)).issues,
      iss.field = entryPfx entries.length i ++ "." ++ f
        ∧ iss.message = "Missing required field" := by
  refine ⟨⟨entryPfx entries.length i ++ "." ++ f, "Missing required field"⟩,
    ?_, rfl, rfl⟩
  apply entry_issue_mem isoOk entries i (.obj fs) _ hget
  show _ ∈ (validate_single_command isoOk fs (entryPfx entries.length i)).1
  rw [validate_single_fst]
  refine List.mem_append_left _ (List.mem_append_left _ (List.mem_append_right _ ?_))
  simp only [missingIssues, List.mem_map]
  refine ⟨f, List.mem_filter.mpr ⟨?_, ?_⟩, rfl⟩
  · simp [requiredOf, ha, hreq, hf]
  · simp [hmiss]

/-- Witness for `missing_param_issue_path` at the concrete two-command
payload. -/
theorem missing_param_issue_path_witness :
    ∃ iss ∈ (validate_command (fun _ => true) (.arr payloadC9)).issues,
      iss.field = entryPfx 2 1 ++ "." ++ "application"
        ∧ iss.message = "Missing required field" :=
  missing_param_issue_path (fun _ => true) payloadC9 1
    [("action", .str "open_app"), ("params", .obj []),
     ("uuid", .str "u2"), ("timestamp", .str "2025-06-01T00:00:00")]
    "open_app" ["application"] "application" rfl rfl rfl (by decide) rfl

/-! ## Response Parser round-trip (fenced code blocks) -/

/-- Dropping while the predicate fails at the head is the identity. -/
theorem dropWhile_head_false (p : Char → Bool) :
    ∀ l : List Char, (∀ c, l.head? = some c → p c = false) → l.dropWhile p = l := by
  intro l h
  cases l with
  | nil => rfl
  | cons a t => simp [List.dropWhile_cons, h a rfl]

/-- `str.strip()` is the identity on a text with non-whitespace ends. -/
theorem pstrip_eq_self (l : List Char)
    (hh : ∀ c, l.head? = some c → isPyWs c = false)
    (hl : ∀ c, l.getLast? = some c → isPyWs c = false) :
    pstrip l = l := by
  simp only [pstrip]
  rw [dropWhile_head_false _ l hh]
  rw [dropWhile_head_false _ l.reverse
    (fun c hc => hl c (by rwa [List.head?_reverse] at hc))]
  exact List.reverse_reverse l

/-- Dropping over a block that satisfies the predicate throughout. -/
theorem dropWhile_append_all (p : Char → Bool) :
    ∀ (l₁ l₂ : List Char), (∀ c ∈ l₁, p c = true) →
      (l₁ ++ l₂).dropWhile p = l₂.dropWhile p := by
  intro l₁
  induction l₁ with
  | nil => intro l₂ _; rfl
  | cons a t ih =>
      intro l₂ h
      simp only [List.cons_append, List.dropWhile_cons,
        h a (List.mem_cons_self a t), if_true]
      exact ih l₂ (fun c hc => h c (List.mem_cons_of_mem a hc))

/-- The greedy closer: up to the last occurrence of the character. -/
theorem takeToLast_append (y post : List Char)
    (hpost : ∀ c ∈ post, c ≠ '}') :
    takeToLast '}' (y ++ '}' :: post) = some (y ++ ['}']) := by
  have hrev : (y ++ '}' :: post).reverse = post.reverse ++ '}' :: y.reverse := by
    simp
  have hall : ∀ c ∈ post.reverse, (fun c => decide (c ≠ '}')) c = true := by
    intro c hc
    simpa using hpost c (List.mem_reverse.mp hc)
  simp only [takeToLast, hrev]
  rw [dropWhile_append_all _ _ _ hall]
  simp [List.dropWhile_cons]

/-- `scanMinObj` on a body whose tail is a closing brace followed by a
closing fence returns a prefix of the object body ending at a brace. -/
theorem scanMinObj_spec (close : List Char) (hclose : fenceAfter close = true) :
    ∀ y : List Char, ∃ b, scanMinObj (y ++ '}' :: close) = some b
      ∧ b <+: (y ++ ['}']) ∧ b.getLast? = some '}' := by
  intro y
  induction y with
  | nil =>
      refine ⟨['}'], ?_, List.prefix_refl _, rfl⟩
      simp [scanMinObj, hclose]
  | cons a y' ih =>
      rcases ih with ⟨b, hscan, hpref, hlast⟩
      by_cases ha : a = '}' ∧ fenceAfter (y' ++ '}' :: close) = true
      · refine ⟨[a], ?_, ?_, ?_⟩
        · simp [scanMinObj, ha.1, ha.2]
        · exact ⟨y' ++ ['}'], by simp⟩
        · simp [ha.1]
      · have : scanMinObj (a :: (y' ++ '}' :: close)) = (scanMinObj (y' ++ '}' :: close)).map (a :: ·) := by
          simp only [scanMinObj]
          rw [if_neg (by simpa using ha)]
        refine ⟨a :: b, ?_, ?_, ?_⟩
        · rw [List.cons_append, this, hscan]; rfl
        · rcases hpref with ⟨t, ht⟩
          exact ⟨t, by simp [ht]⟩
        · rcases b with _ | ⟨b0, bs⟩
          · cases hlast
          · simpa using hlast


/-- The closing fence of `fenceWrap` satisfies the after-group check. -/
theorem fenceAfter_close : fenceAfter ('\n' :: ['`', '`', '`']) = true := by decide

/-- The fenced pattern anchored at the start of a wrapped object matches,
and its group is a prefix of the object fragment ending at a brace. -/
theorem fencedFrom_wrap (tag : Bool) (y : List Char) :
    ∃ b, fencedFrom (fenceWrap tag ('{' :: (y ++ ['}']))) = some ('{' :: b)
      ∧ b <+: (y ++ ['}']) ∧ b.getLast? = some '}' := by
  rcases scanMinObj_spec ('\n' :: ['`', '`', '`']) fenceAfter_close y with
    ⟨b, hscan, hpref, hlast⟩
  refine ⟨b, ?_, hpref, hlast⟩
  have hbody : ('{' :: (y ++ ['}'])) ++ '\n' :: ['`', '`', '`']
      = '{' :: (y ++ '}' :: ('\n' :: ['`', '`', '`'])) := by simp
  cases tag <;>
    · simp only [fencedFrom, fenceWrap, if_true, if_false]
      simp only [List.cons_append, List.nil_append, hbody]
      simp [skipWs, isPyWs, List.isPrefixOf, hscan]

/-- `re.search` returns the match anchored at the leftmost position; at
position zero it is whatever `fencedFrom` yields there. -/
theorem fencedSearch_of_from (l : List Char) (g : List Char)
    (h : fencedFrom l = some g) : fencedSearch l = some g := by
  cases l with
  | nil => simp [fencedFrom] at h
  | cons c rest => simp [fencedSearch, h]

/-- The greedy object search skips a brace-free prelude. -/
theorem greedyObj_append (pre l : List Char) (hpre : ∀ c ∈ pre, c ≠ '{') :
    greedyObj (pre ++ l) = greedyObj l := by
  induction pre with
  | nil => rfl
  | cons a t ih =>
      simp only [List.cons_append, greedyObj]
      rw [if_neg (hpre a (List.mem_cons_self a t))]
      exact ih (fun c hc => hpre c (List.mem_cons_of_mem a hc))

/-- The greedy object search on a wrapped object recovers exactly the
object fragment. -/
theorem greedyObj_wrap (tag : Bool) (y : List Char) :
    greedyObj (fenceWrap tag ('{' :: (y ++ ['}'])))
      = some ('{' :: (y ++ ['}'])) := by
  have hpre : ∀ c ∈ ('`' :: '`' :: '`' ::
      ((if tag then ['j', 's', 'o', 'n'] else []) ++ ['\n'])), c ≠ '{' := by
    cases tag <;> decide
  have hshape : fenceWrap tag ('{' :: (y ++ ['}']))
      = ('`' :: '`' :: '`' :: ((if tag then ['j', 's', 'o', 'n'] else []) ++ ['\n']))
        ++ ('{' :: (y ++ '}' :: ('\n' :: ['`', '`', '`']))) := by
    cases tag <;> simp [fenceWrap]
  rw [hshape, greedyObj_append _ _ hpre]
  simp only [greedyObj, if_pos rfl]
  rw [takeToLast_append y ('\n' :: ['`', '`', '`']) (by decide)]
  simp

/-- C8: the Response Parser is transparent to fenced code blocks: for a
serialized JSON object `S` (parsed by `json.loads` to `v`, with JSON's
prefix-freeness, and not parseable with the fences still attached), the
parser on the fence-wrapped text — with or without a `json` language tag —
succeeds with exactly `v`, the same value as parsing the fragment
directly. -/
theorem parse_json_safely_fenced (loads : List Char → Option JValue)
    (v : JValue) (S : List Char) (tag : Bool)
    (hS : loads S = some v)
    (hpre : ∀ p : List Char, p <+: S → p ≠ S → loads p = none)
    (hwrap : loads (fenceWrap tag S) = none)
    (hhead : S.head? = some '{')
    (hlast : S.getLast? = some '}') :
    parse_json_safely loads (fenceWrap tag S) = .ok v
      ∧ parse_json_safely loads S = .ok v := by
  -- decompose S = '{' :: (y ++ ['}'])
  obtain ⟨t, rfl⟩ : ∃ t, S = '{' :: t := by
    cases S with
    | nil => cases hhead
    | cons c t => cases hhead; exact ⟨t, rfl⟩
  obtain ⟨y, rfl⟩ : ∃ y, t = y ++ ['}'] := by
    rcases List.getLast?_eq_some_iff.mp hlast with ⟨ys, hys⟩
    cases ys with
    | nil => cases hys
    | cons y0 yr =>
        cases hys
        exact ⟨yr, rfl⟩
  have hstripS : pstrip ('{' :: (y ++ ['}'])) = '{' :: (y ++ ['}']) := by
    apply pstrip_eq_self
    · intro c hc; cases hc; rfl
    · intro c hc
      rw [List.getLast?_cons, List.getLast?_concat] at hc
      cases hc; rfl
  have hdirect : parse_json_safely loads ('{' :: (y ++ ['}'])) = .ok v := by
    simp [parse_json_safely, hstripS, hS]
  refine ⟨?_, hdirect⟩
  -- the wrapped text survives stripping
  have hstripW : pstrip (fenceWrap tag ('{' :: (y ++ ['}'])))
      = fenceWrap tag ('{' :: (y ++ ['}'])) := by
    apply pstrip_eq_self
    · intro c hc
      simp only [fenceWrap, List.cons_append, List.head?_cons] at hc
      cases hc; rfl
    · intro c hc
      simp only [fenceWrap, List.getLast?_append] at hc
      simp only [List.getLast?_cons, List.getLast?_concat] at hc
      simp at hc
      cases hc; rfl
  -- the candidate list
  rcases fencedFrom_wrap tag y with ⟨b, hfrom, hpref, hblast⟩
  have hsearch := fencedSearch_of_from _ _ hfrom
  have hgreedy := greedyObj_wrap tag y
  have hstripC : pstrip ('{' :: b) = '{' :: b := by
    apply pstrip_eq_self
    · intro c hc; cases hc; rfl
    · intro c hc
      rcases b with _ | ⟨b0, bs⟩
      · cases hblast
      · rw [List.getLast?_cons_cons, hblast] at hc
        cases hc; rfl
  have hcands : extract_json_candidates (fenceWrap tag ('{' :: (y ++ ['}'])))
      = ['{' :: b, '{' :: (y ++ ['}'])]
        ++ (match greedyArr (fenceWrap tag ('{' :: (y ++ ['}']))) with
            | some g => [pstrip g]
            | none => []) := by
    simp [extract_json_candidates, hsearch, hgreedy, hstripC, hstripS]
  have hne : ¬ (fenceWrap tag ('{' :: (y ++ ['}']))).isEmpty = true := by
    simp [fenceWrap]
  simp only [parse_json_safely, hstripW, hwrap, hcands, hne, if_false,
    Bool.false_eq_true]
  -- try the candidates: the fenced group, then the greedy object fragment
  by_cases hcS : ('{' :: b) = '{' :: (y ++ ['}'])
  · rw [hcS]
    simp [tryCandidates, hS]
  · have hload_b : loads ('{' :: b) = none := by
      apply hpre
      · rcases hpref with ⟨u, hu⟩
        exact ⟨u, by simp [hu]⟩
      · exact hcS
    simp [tryCandidates, hload_b, hS]

/-- A concrete `json.loads` stand-in for the round-trip witness: parses
exactly the serialization `{"a": 1}`. -/
def loadsC8 : List Char → Option JValue := fun cs =>
  if cs = ('{' :: '"' :: 'a' :: '"' :: ':' :: ' ' :: '1' :: '}' :: [])
  then some (.obj [("a", .num 1)]) else none

/-- Witness for `parse_json_safely_fenced`: wrapping `{"a": 1}` in a tagged
fenced block parses to the same object as the fragment. -/
theorem parse_json_safely_fenced_witness :
    parse_json_safely loadsC8
        (fenceWrap true ('{' :: '"' :: 'a' :: '"' :: ':' :: ' ' :: '1' :: '}' :: []))
      = .ok (.obj [("a", .num 1)])
    ∧ parse_json_safely loadsC8
        ('{' :: '"' :: 'a' :: '"' :: ':' :: ' ' :: '1' :: '}' :: [])
      = .ok (.obj [("a", .num 1)]) :=
  parse_json_safely_fenced loadsC8 (.obj [("a", .num 1)])
    ('{' :: '"' :: 'a' :: '"' :: ':' :: ' ' :: '1' :: '}' :: []) true
    rfl
    (fun p _ hne => by simp [loadsC8, hne])
    rfl rfl rfl

end Assistant
